import Mathlib

/-!
# Verification of the embedded-resource packaging generator

Shallow embedding of `tools/gen_stdlib.py` and of the C lookup/materialize
functions it emits.  Strings are modelled as `List Char`; file-system paths
as lists of path components (`List (List Char)`); a directory tree as a
nested inductive `FSTree`.
-/

set_option autoImplicit false

namespace GenStdlib

/-- A module of the Registry: `(name, source)`, both modelled as `List Char`. -/
abbrev Module := List Char × List Char

/-- Concatenation of `f` mapped over a list (used to state per-character
homomorphisms and to model sequential emission). -/
def concatMap {α β : Type} (f : α → List β) : List α → List β
  | [] => []
  | a :: l => f a ++ concatMap f l

theorem concatMap_nil {α β : Type} (f : α → List β) : concatMap f [] = [] := rfl

theorem concatMap_cons {α β : Type} (f : α → List β) (a : α) (l : List α) :
    concatMap f (a :: l) = f a ++ concatMap f l := rfl

theorem concatMap_append {α β : Type} (f : α → List β) (l₁ l₂ : List α) :
    concatMap f (l₁ ++ l₂) = concatMap f l₁ ++ concatMap f l₂ := by
  induction l₁ with
  | nil => rfl
  | cons a l ih => simp [concatMap_cons, ih, List.append_assoc]

theorem concatMap_concatMap {α β γ : Type} (f : β → List γ) (g : α → List β) (l : List α) :
    concatMap f (concatMap g l) = concatMap (fun a => concatMap f (g a)) l := by
  induction l with
  | nil => rfl
  | cons a l ih => simp [concatMap_cons, concatMap_append, ih]

theorem concatMap_ext {α β : Type} (f g : α → List β) (h : ∀ a, f a = g a) (l : List α) :
    concatMap f l = concatMap g l := by
  have hfg : f = g := funext h
  rw [hfg]

/-- Python's `str.replace(old, new)` on `List Char`: scan left to right,
replace each (non-overlapping) leftmost occurrence of `old` by `new` and
continue after it.  (Python's special behaviour for an empty `old` is never
exercised by the source, which only passes one-character patterns; here an
empty pattern never matches.) -/
def pyReplace (old new : List Char) : List Char → List Char
  | [] => []
  | c :: s =>
    if old ≠ [] ∧ old.isPrefixOf (c :: s) = true
    then new ++ pyReplace old new (s.drop (old.length - 1))
    else c :: pyReplace old new s
termination_by s => s.length
decreasing_by
  · simp only [List.length_drop, List.length_cons]
    omega
  · simp

/-- `tools/gen_stdlib.py`, `escape_c`:
`s.replace('\\', r'\\').replace('"', r'\"').replace('\n', r'\n')`. -/
def escape_c (s : List Char) : List Char :=
  pyReplace ['\n'] ['\\', 'n'] (pyReplace ['"'] ['\\', '"'] (pyReplace ['\\'] ['\\', '\\'] s))

/-- The per-character escape map described by the spec: backslash and
double-quote get a backslash prepended, a newline becomes backslash-`n`,
every other character is kept unchanged. -/
def escMapChar (c : Char) : List Char :=
  if c = '\\' then ['\\', '\\']
  else if c = '"' then ['\\', '"']
  else if c = '\n' then ['\\', 'n']
  else [c]

theorem pyReplace_single (a : Char) (r : List Char) (s : List Char) :
    pyReplace [a] r s = concatMap (fun c => if c = a then r else [c]) s := by
  induction s with
  | nil => simp [pyReplace, concatMap_nil]
  | cons c s ih =>
    by_cases h : c = a
    · subst h
      rw [pyReplace]
      simp [List.isPrefixOf, ih, concatMap_cons]
    · rw [pyReplace]
      have hpre : ([a].isPrefixOf (c :: s)) = false := by
        simp [List.isPrefixOf]
        intro hac
        exact absurd hac.symm h
      simp [hpre, ih, concatMap_cons, h]

theorem escape_c_eq_concatMap (s : List Char) :
    escape_c s = concatMap escMapChar s := by
  unfold escape_c
  rw [pyReplace_single, pyReplace_single, pyReplace_single,
      concatMap_concatMap, concatMap_concatMap]
  apply concatMap_ext
  intro c
  by_cases h1 : c = '\\'
  · subst h1; simp [escMapChar, concatMap]
  · by_cases h2 : c = '"'
    · subst h2; simp [escMapChar, concatMap]
    · by_cases h3 : c = '\n'
      · subst h3; simp [escMapChar, concatMap]
      · simp [escMapChar, concatMap, h1, h2, h3]

/-- C2: the Escaper is the per-character homomorphism that maps backslash to
backslash-backslash, double-quote to backslash-quote, newline to
backslash-`n`, and every other character to itself: for every input `s`,
`escape_c s` is the concatenation of that character map over `s`. -/
theorem c2_escape_is_char_homomorphism (s : List Char) :
    escape_c s = concatMap escMapChar s :=
  escape_c_eq_concatMap s

/-- Modelled from the spec: the inverse unescape of the target literal
syntax is performed by the C compiler when it parses the generated string
literal; it is not part of this repository.  Faithful to the spec's stated
map: backslash-backslash to backslash, backslash-quote to double-quote,
backslash-`n` to newline; any other character is taken literally. -/
def unescape_c : List Char → List Char
  | [] => []
  | c1 :: s1 =>
    if c1 = '\\' then
      match s1 with
      | [] => [c1]
      | c2 :: s2 =>
        if c2 = '\\' then '\\' :: unescape_c s2
        else if c2 = '"' then '"' :: unescape_c s2
        else if c2 = 'n' then '\n' :: unescape_c s2
        else c1 :: unescape_c (c2 :: s2)
    else c1 :: unescape_c s1
termination_by s => s.length
decreasing_by all_goals simp_arith

theorem unescape_c_nil : unescape_c [] = [] := by
  rw [unescape_c.eq_def]

theorem unescape_c_bs_bs (s : List Char) :
    unescape_c ('\\' :: '\\' :: s) = '\\' :: unescape_c s := by
  rw [unescape_c.eq_def]
  simp

theorem unescape_c_bs_quote (s : List Char) :
    unescape_c ('\\' :: '"' :: s) = '"' :: unescape_c s := by
  rw [unescape_c.eq_def]
  simp

theorem unescape_c_bs_n (s : List Char) :
    unescape_c ('\\' :: 'n' :: s) = '\n' :: unescape_c s := by
  rw [unescape_c.eq_def]
  simp

theorem unescape_c_other (c : Char) (h : c ≠ '\\') (s : List Char) :
    unescape_c (c :: s) = c :: unescape_c s := by
  rw [unescape_c.eq_def]
  simp [h]

/-- C3: escaping is exactly reversible: for every string `s`, applying the
unescape of the target literal syntax (backslash-backslash to backslash,
backslash-quote to double-quote, backslash-`n` to newline) to `escape_c s`
reproduces `s` exactly. -/
theorem c3_escape_roundtrip (s : List Char) :
    unescape_c (escape_c s) = s := by
  rw [escape_c_eq_concatMap]
  induction s with
  | nil => rw [concatMap_nil, unescape_c_nil]
  | cons c s ih =>
    rw [concatMap_cons]
    by_cases h1 : c = '\\'
    · subst h1
      have : escMapChar '\\' = ['\\', '\\'] := rfl
      rw [this, List.cons_append, List.cons_append, List.nil_append,
        unescape_c_bs_bs, ih]
    · by_cases h2 : c = '"'
      · subst h2
        have : escMapChar '"' = ['\\', '"'] := rfl
        rw [this, List.cons_append, List.cons_append, List.nil_append,
          unescape_c_bs_quote, ih]
      · by_cases h3 : c = '\n'
        · subst h3
          have : escMapChar '\n' = ['\\', 'n'] := rfl
          rw [this, List.cons_append, List.cons_append, List.nil_append,
            unescape_c_bs_n, ih]
        · have : escMapChar c = [c] := by simp [escMapChar, h1, h2, h3]
          rw [this, List.cons_append, List.nil_append, unescape_c_other c h1, ih]

/-- The emitted C function `getEmbeddedModule`: a linear scan over the
embedded table in stored order, returning the `source` of the first entry
whose `name` compares equal under `strcmp` (exact, case-sensitive
equality), and `NULL` (here `none`) when no entry matches. -/
def getEmbeddedModule (name : List Char) : List Module → Option (List Char)
  | [] => none
  | m :: rest => if m.1 = name then some m.2 else getEmbeddedModule name rest

/-- C4: lookup returns the source of the first Module (in stored order)
whose name is exactly equal to the query; it returns an absent value when
no Module matches, including on the empty Registry; with duplicate names it
returns the first inserted occurrence. -/
theorem c4_lookup_first_match :
    (∀ n : List Char, getEmbeddedModule n [] = none)
    ∧ (∀ (pre : List Module) (m : Module) (post : List Module) (n : List Char),
        m.1 = n → (∀ m' ∈ pre, m'.1 ≠ n) →
        getEmbeddedModule n (pre ++ m :: post) = some m.2)
    ∧ (∀ (reg : List Module) (n : List Char),
        (∀ m ∈ reg, m.1 ≠ n) → getEmbeddedModule n reg = none) := by
  refine ⟨fun n => rfl, ?_, ?_⟩
  · intro pre m post n hm hpre
    induction pre with
    | nil => simp [getEmbeddedModule, hm]
    | cons p pre ih =>
      have hp : p.1 ≠ n := hpre p (by simp)
      simp only [List.cons_append, getEmbeddedModule, if_neg hp]
      exact ih (fun m' h => hpre m' (by simp [h]))
  · intro reg n habs
    induction reg with
    | nil => rfl
    | cons m rest ih =>
      have hm : m.1 ≠ n := habs m (by simp)
      simp only [getEmbeddedModule, if_neg hm]
      exact ih (fun m' h => habs m' (by simp [h]))

/-- Witness for C4 at concrete inputs: with a duplicated name the first
occurrence wins, and an absent name yields `none`. -/
theorem c4_lookup_first_match_witness :
    getEmbeddedModule ['a'] [(['a'], ['x']), (['a'], ['y'])] = some ['x']
    ∧ getEmbeddedModule ['b'] [(['a'], ['x'])] = none :=
  ⟨c4_lookup_first_match.2.1 [] (['a'], ['x']) [(['a'], ['y'])] ['a'] rfl
      (by intro m' h; simp at h),
   c4_lookup_first_match.2.2 [(['a'], ['x'])] ['b'] (by decide)⟩

/-- A directory tree: a node holds its regular files (name, content) and its
subdirectories (name, subtree).  Names are single path components. -/
inductive FSTree where
  | node : List (List Char × List Char) → List (List Char × FSTree) → FSTree

/-- The extension filter of the scan loop: `f.endswith('.orus')`. -/
def endsWithOrus (f : List Char) : Bool :=
  List.isSuffixOf ['.', 'o', 'r', 'u', 's'] f

/-- The fixed namespace prefix `'std'`. -/
def stdC : List Char := ['s', 't', 'd']

/-- Join path components with `'/'` (POSIX `os.path.join` / `os.path.relpath`
on components). -/
def joinPath : List (List Char) → List Char
  | [] => []
  | [p] => p
  | p :: q :: ps => p ++ '/' :: joinPath (q :: ps)

/-- The module name computed by the scan loop:
`os.path.join('std', rel).replace('\\', '/')` where `rel` is the path of the
file relative to the scanned root, given here by its components `q`. -/
def mkName (q : List (List Char)) : List Char :=
  pyReplace ['\\'] ['/'] (joinPath (stdC :: q))

/-- Python 3 text-mode universal-newline translation, applied by
`open(path, 'r').read()`: each CRLF pair and each lone CR becomes LF;
everything else is unchanged. -/
def univNewlines : List Char → List Char
  | [] => []
  | c :: s =>
    if c = '\r' then
      match s with
      | [] => ['\n']
      | c2 :: s2 =>
        if c2 = '\n' then '\n' :: univNewlines s2
        else '\n' :: univNewlines (c2 :: s2)
    else c :: univNewlines s
termination_by s => s.length
decreasing_by all_goals simp_arith

theorem univNewlines_nil : univNewlines [] = [] := by
  rw [univNewlines.eq_def]

theorem univNewlines_other (c : Char) (h : c ≠ '\r') (s : List Char) :
    univNewlines (c :: s) = c :: univNewlines s := by
  rw [univNewlines.eq_def]
  simp [h]

theorem univNewlines_cr_nil : univNewlines ['\r'] = ['\n'] := by
  rw [univNewlines.eq_def]
  simp

theorem univNewlines_crlf (s : List Char) :
    univNewlines ('\r' :: '\n' :: s) = '\n' :: univNewlines s := by
  rw [univNewlines.eq_def]
  simp

theorem univNewlines_cr_other (c2 : Char) (h : c2 ≠ '\n') (s2 : List Char) :
    univNewlines ('\r' :: c2 :: s2) = '\n' :: univNewlines (c2 :: s2) := by
  rw [univNewlines.eq_def]
  simp [h]

theorem univNewlines_id (s : List Char) (h : '\r' ∉ s) : univNewlines s = s := by
  induction s with
  | nil => exact univNewlines_nil
  | cons c s ih =>
    have hc : c ≠ '\r' := fun hc => h (by simp [hc])
    rw [univNewlines_other c hc, ih (fun hm => h (by simp [hm]))]

/-- The inner loop of the scanner over the files of one directory:
keep files ending in `.orus`, producing `(name, content as read by
`open(path, 'r').read()`, i.e. after universal-newline translation)`. -/
def scanFilesList (pre : List (List Char)) (files : List (List Char × List Char)) :
    List Module :=
  files.filterMap (fun fc =>
    if endsWithOrus fc.1 then some (mkName (pre ++ [fc.1]), univNewlines fc.2) else none)

mutual

/-- The scan loop of `gen_stdlib.py` over `os.walk(src_dir)` (top-down:
the files of a directory first, then its subdirectories in listed order).
`pre` is the component path of the current directory relative to the root. -/
def scanTree (pre : List (List Char)) : FSTree → List Module
  | .node files dirs => scanFilesList pre files ++ scanDirsList pre dirs

def scanDirsList (pre : List (List Char)) : List (List Char × FSTree) → List Module
  | [] => []
  | (d, t) :: rest => scanTree (pre ++ [d]) t ++ scanDirsList pre rest

end

/-- A file of a tree: (directory components, file name, content). -/
abbrev FileEntry := List (List Char) × List Char × List Char

mutual

/-- Enumeration of every file of a tree with its relative directory path;
the specification-side description of the tree's contents against which the
scanner is compared. -/
def filesOf : FSTree → List FileEntry
  | .node files dirs => files.map (fun fc => ([], fc.1, fc.2)) ++ filesOfDirs dirs

def filesOfDirs : List (List Char × FSTree) → List FileEntry
  | [] => []
  | (d, t) :: rest => (filesOf t).map (fun e => (d :: e.1, e.2)) ++ filesOfDirs rest

end

/-- What the scanner contributes for one enumerated file. -/
def entryScan (pre : List (List Char)) (e : FileEntry) : Option Module :=
  if endsWithOrus e.2.1
  then some (mkName (pre ++ e.1 ++ [e.2.1]), univNewlines e.2.2)
  else none

theorem filterMap_ext {α β : Type} (f g : α → Option β) (h : ∀ a, f a = g a)
    (l : List α) : l.filterMap f = l.filterMap g := by
  have hfg : f = g := funext h
  rw [hfg]

theorem filterMap_extMem {α β : Type} (f g : α → Option β) (l : List α)
    (h : ∀ a ∈ l, f a = g a) : l.filterMap f = l.filterMap g := by
  induction l with
  | nil => rfl
  | cons a l ih =>
    simp only [List.filterMap_cons, h a (by simp)]
    rw [ih (fun a ha => h a (by simp [ha]))]

mutual

theorem scanTree_eq_filesOf (pre : List (List Char)) (t : FSTree) :
    scanTree pre t = (filesOf t).filterMap (entryScan pre) := by
  cases t with
  | node files dirs =>
    rw [scanTree, filesOf, List.filterMap_append, List.filterMap_map,
      scanDirsList_eq_filesOfDirs pre dirs]
    congr 1
    rw [scanFilesList]
    apply filterMap_ext
    intro fc
    simp [entryScan, Function.comp]

theorem scanDirsList_eq_filesOfDirs (pre : List (List Char))
    (dirs : List (List Char × FSTree)) :
    scanDirsList pre dirs = (filesOfDirs dirs).filterMap (entryScan pre) := by
  cases dirs with
  | nil => rfl
  | cons dt rest =>
    obtain ⟨d, t⟩ := dt
    rw [scanDirsList, filesOfDirs, List.filterMap_append, List.filterMap_map,
      scanTree_eq_filesOf (pre ++ [d]) t, scanDirsList_eq_filesOfDirs pre rest]
    congr 1
    apply filterMap_ext
    intro e
    simp [entryScan, Function.comp, List.append_assoc]

end

/-- A path component is valid when it is nonempty and contains neither the
path separator `'/'` nor a backslash (a backslash inside a file name would
be rewritten by the scanner's separator normalization). -/
def validName (s : List Char) : Bool :=
  decide (s ≠ [] ∧ '/' ∉ s ∧ '\\' ∉ s)

mutual

/-- Every file name and directory name of the tree is a valid component. -/
def cleanNames : FSTree → Bool
  | .node files dirs =>
    files.all (fun fc => validName fc.1) && dirs.all (fun dt => validName dt.1)
      && cleanDirs dirs

def cleanDirs : List (List Char × FSTree) → Bool
  | [] => true
  | (_, t) :: rest => cleanNames t && cleanDirs rest

end

theorem mem_filesOfDirs (dirs : List (List Char × FSTree)) (e : FileEntry) :
    e ∈ filesOfDirs dirs ↔
      ∃ d t, (d, t) ∈ dirs ∧ ∃ e' ∈ filesOf t, e = (d :: e'.1, e'.2) := by
  induction dirs with
  | nil => simp [filesOfDirs]
  | cons dt rest ih =>
    obtain ⟨d, t⟩ := dt
    rw [filesOfDirs]
    simp only [List.mem_append, List.mem_map, ih, List.mem_cons]
    constructor
    · rintro (⟨e', he', rfl⟩ | ⟨d', t', hdt, e', he', rfl⟩)
      · exact ⟨d, t, Or.inl rfl, e', he', rfl⟩
      · exact ⟨d', t', Or.inr hdt, e', he', rfl⟩
    · rintro ⟨d', t', hdt | hdt, e', he', rfl⟩
      · obtain ⟨h1, h2⟩ := Prod.mk.injEq .. ▸ hdt
        simp only [Prod.mk.injEq] at hdt
        exact Or.inl ⟨e', hdt.2 ▸ he', by rw [hdt.1]⟩
      · exact Or.inr ⟨d', t', hdt, e', he', rfl⟩

mutual

theorem cleanNames_filesOf (t : FSTree) (h : cleanNames t = true) :
    ∀ e ∈ filesOf t, (∀ c ∈ e.1, validName c = true) ∧ validName e.2.1 = true := by
  cases t with
  | node files dirs =>
    rw [cleanNames] at h
    simp only [Bool.and_eq_true, List.all_eq_true] at h
    obtain ⟨⟨hf, hd⟩, hrec⟩ := h
    intro e he
    rw [filesOf] at he
    rcases List.mem_append.1 he with hm | hm
    · obtain ⟨fc, hfc, rfl⟩ := List.mem_map.1 hm
      exact ⟨by simp, hf fc hfc⟩
    · obtain ⟨d, t', hdt, e', he', rfl⟩ := (mem_filesOfDirs dirs e).1 hm
      have hsub := cleanDirs_filesOf dirs hrec d t' hdt e' he'
      refine ⟨?_, hsub.2⟩
      intro c hc
      rcases List.mem_cons.1 hc with rfl | hc
      · exact hd (c, t') hdt
      · exact hsub.1 c hc

theorem cleanDirs_filesOf (dirs : List (List Char × FSTree)) (h : cleanDirs dirs = true) :
    ∀ d t, (d, t) ∈ dirs → ∀ e ∈ filesOf t,
      (∀ c ∈ e.1, validName c = true) ∧ validName e.2.1 = true := by
  cases dirs with
  | nil => intro d t hdt; exact absurd hdt (List.not_mem_nil _)
  | cons dt rest =>
    obtain ⟨d0, t0⟩ := dt
    rw [cleanDirs] at h
    simp only [Bool.and_eq_true] at h
    intro d t hdt
    rcases List.mem_cons.1 hdt with heq | hmem
    · simp only [Prod.mk.injEq] at heq
      exact heq.2 ▸ cleanNames_filesOf t0 h.1
    · exact cleanDirs_filesOf rest h.2 d t hmem

end

theorem mem_joinPath (ps : List (List Char)) (c : Char) (h : c ∈ joinPath ps) :
    c = '/' ∨ ∃ p ∈ ps, c ∈ p := by
  induction ps with
  | nil => simp [joinPath] at h
  | cons p rest ih =>
    cases rest with
    | nil =>
      rw [joinPath] at h
      exact Or.inr ⟨p, by simp, h⟩
    | cons q ps' =>
      rw [joinPath] at h
      rcases List.mem_append.1 h with hm | hm
      · exact Or.inr ⟨p, by simp, hm⟩
      · rcases List.mem_cons.1 hm with rfl | hm
        · exact Or.inl rfl
        · rcases ih hm with h1 | ⟨p', hp', hc⟩
          · exact Or.inl h1
          · exact Or.inr ⟨p', by simp [hp'], hc⟩

theorem pyReplace_single_id (a : Char) (r : List Char) (s : List Char) (h : a ∉ s) :
    pyReplace [a] r s = s := by
  rw [pyReplace_single]
  induction s with
  | nil => rfl
  | cons c s ih =>
    have hca : ¬ c = a := fun hc => h (by simp [hc])
    rw [concatMap_cons, if_neg hca, List.singleton_append]
    rw [ih (fun hm => h (by simp [hm]))]

theorem mkName_eq_joinPath (q : List (List Char)) (h : ∀ p ∈ q, validName p = true) :
    mkName q = joinPath (stdC :: q) := by
  rw [mkName]
  apply pyReplace_single_id
  intro hmem
  rcases mem_joinPath _ _ hmem with h1 | ⟨p, hp, hc⟩
  · exact absurd h1 (by decide)
  · rcases List.mem_cons.1 hp with rfl | hp
    · exact absurd hc (by decide)
    · have := of_decide_eq_true (h p hp)
      exact this.2.2 hc

/-- Counterexample to C5 at a concrete input: a file whose content holds a
carriage return.  `open(path, 'r').read()` applies universal-newline
translation, so the stored source is `x\ny`, not the exact original
content `x\ry` — the claim's "source is the exact, unmodified original
file content" fails. -/
theorem c5_counterexample :
    scanTree [] (FSTree.node [(['a', '.', 'o', 'r', 'u', 's'], ['x', '\r', 'y'])] [])
      = [(['s', 't', 'd', '/', 'a', '.', 'o', 'r', 'u', 's'], ['x', '\n', 'y'])]
    ∧ (['x', '\n', 'y'] : List Char) ≠ ['x', '\r', 'y'] := by
  constructor
  · have hm : mkName [['a', '.', 'o', 'r', 'u', 's']]
        = ['s', 't', 'd', '/', 'a', '.', 'o', 'r', 'u', 's'] := by
      rw [mkName, pyReplace_single_id _ _ _ (by decide)]
      rfl
    have hu : univNewlines ['x', '\r', 'y'] = ['x', '\n', 'y'] := by
      rw [univNewlines_other 'x' (by decide), univNewlines_cr_other 'y' (by decide),
        univNewlines_other 'y' (by decide), univNewlines_nil]
    simp +decide [scanTree, scanDirsList, scanFilesList, hm, hu]
  · decide

/-- C5 amended: on a tree with valid component names, the scanner produces
exactly, for every file whose name ends in `.orus`, a Module whose name is
the file's root-relative path prefixed with `std` and joined with `'/'`,
and whose source is the file content as read in Python text mode, i.e.
after universal-newline translation (CRLF and lone CR become LF) — the
exact original content whenever the file contains no carriage return;
files not matching the extension produce no Module. -/
theorem c5_amended_scanner (t : FSTree) (h : cleanNames t = true) :
    (scanTree [] t = (filesOf t).filterMap (fun e =>
      if endsWithOrus e.2.1
      then some (joinPath (stdC :: (e.1 ++ [e.2.1])), univNewlines e.2.2)
      else none))
    ∧ (∀ s : List Char, '\r' ∉ s → univNewlines s = s) := by
  constructor
  · rw [scanTree_eq_filesOf]
    apply filterMap_extMem
    intro e he
    rw [entryScan, List.nil_append]
    obtain ⟨h1, h2⟩ := cleanNames_filesOf t h e he
    by_cases ho : endsWithOrus e.2.1
    · rw [if_pos ho, if_pos ho, mkName_eq_joinPath]
      intro p hp
      rcases List.mem_append.1 hp with hp | hp
      · exact h1 p hp
      · rcases List.mem_singleton.1 hp with rfl
        exact h2
    · rw [if_neg ho, if_neg ho]
  · exact univNewlines_id

/-- A concrete two-level example tree used by witnesses. -/
def exTree : FSTree :=
  FSTree.node [(['a', '.', 'o', 'r', 'u', 's'], ['1', '\n']), (['b', '.', 't', 'x', 't'], ['2'])]
    [(['s', 'u', 'b'], FSTree.node [(['c', '.', 'o', 'r', 'u', 's'], ['3'])] [])]

/-- Witness for the amended C5 at the concrete example tree and a concrete
carriage-return-free content. -/
theorem c5_amended_scanner_witness :
    (scanTree [] exTree = (filesOf exTree).filterMap (fun e =>
      if endsWithOrus e.2.1
      then some (joinPath (stdC :: (e.1 ++ [e.2.1])), univNewlines e.2.2)
      else none))
    ∧ univNewlines ['o', 'k', '\n'] = ['o', 'k', '\n'] :=
  ⟨(c5_amended_scanner exTree (by decide)).1,
   (c5_amended_scanner exTree (by decide)).2 ['o', 'k', '\n'] (by decide)⟩

/-- Split a path string at `'/'` into its components (how `mkdir`/`fopen`
interpret the path built by `snprintf(full, "%s/%s", dir, name)`). -/
def splitSlash : List Char → List (List Char)
  | [] => [[]]
  | c :: rest =>
    if c = '/' then [] :: splitSlash rest
    else
      match splitSlash rest with
      | [] => [[c]]
      | p :: ps => (c :: p) :: ps

theorem splitSlash_ne_nil (s : List Char) : splitSlash s ≠ [] := by
  cases s with
  | nil => simp [splitSlash]
  | cons c rest =>
    rw [splitSlash]
    by_cases h : c = '/'
    · simp [h]
    · simp only [if_neg h]
      cases splitSlash rest <;> simp

theorem splitSlash_no_slash (s : List Char) (h : '/' ∉ s) : splitSlash s = [s] := by
  induction s with
  | nil => rfl
  | cons c rest ih =>
    have hc : ¬ c = '/' := fun hc => h (by simp [hc])
    rw [splitSlash, if_neg hc, ih (fun hm => h (by simp [hm]))]

theorem splitSlash_append_slash (p q : List Char) (h : '/' ∉ p) :
    splitSlash (p ++ '/' :: q) = p :: splitSlash q := by
  induction p with
  | nil => simp [splitSlash]
  | cons c rest ih =>
    have hc : ¬ c = '/' := fun hc => h (by simp [hc])
    rw [List.cons_append, splitSlash, if_neg hc,
      ih (fun hm => h (by simp [hm]))]

theorem splitSlash_joinPath (ps : List (List Char)) (hne : ps ≠ [])
    (h : ∀ p ∈ ps, '/' ∉ p) : splitSlash (joinPath ps) = ps := by
  induction ps with
  | nil => exact absurd rfl hne
  | cons p rest ih =>
    cases rest with
    | nil =>
      rw [joinPath]
      exact splitSlash_no_slash p (h p (by simp))
    | cons q ps' =>
      rw [joinPath, splitSlash_append_slash p _ (h p (by simp)),
        ih (by simp) (fun p' hp' => h p' (by simp [hp']))]

/-- The text strictly before the last `'/'` of a string, when the string
contains one (`strrchr(full, '/')` followed by `*slash = 0`). -/
def parentOf : List Char → Option (List Char)
  | [] => none
  | c :: rest =>
    match parentOf rest with
    | some p => some (c :: p)
    | none => if c = '/' then some [] else none

theorem parentOf_none (s : List Char) (h : parentOf s = none) : '/' ∉ s := by
  induction s with
  | nil => simp
  | cons c rest ih =>
    simp only [parentOf] at h
    cases hr : parentOf rest with
    | some p => rw [hr] at h; simp at h
    | none =>
      rw [hr] at h
      by_cases hc : c = '/'
      · rw [if_pos hc] at h; simp at h
      · intro hm
        rcases List.mem_cons.1 hm with heq | hm
        · exact hc heq.symm
        · exact ih hr hm

theorem parentOf_spec (s : List Char) (p : List Char) (h : parentOf s = some p) :
    ∃ q, s = p ++ '/' :: q ∧ '/' ∉ q := by
  induction s generalizing p with
  | nil => simp [parentOf] at h
  | cons c rest ih =>
    simp only [parentOf] at h
    cases hr : parentOf rest with
    | some p' =>
      rw [hr] at h
      simp only [Option.some.injEq] at h
      obtain ⟨q, hq1, hq2⟩ := ih p' hr
      refine ⟨q, ?_, hq2⟩
      rw [← h, hq1]
      rfl
    | none =>
      rw [hr] at h
      by_cases hc : c = '/'
      · rw [if_pos hc] at h
        simp only [Option.some.injEq] at h
        subst hc
        exact ⟨rest, by rw [← h]; rfl, parentOf_none rest hr⟩
      · rw [if_neg hc] at h; simp at h

theorem parentOf_of_slash (s : List Char) (h : '/' ∈ s) :
    ∃ p, parentOf s = some p := by
  cases hp : parentOf s with
  | none => exact absurd h (parentOf_none s hp)
  | some p => exact ⟨p, rfl⟩

/-- The directories the emitted `ensure_dir` creates for its argument:
after `strncpy` into `char tmp[512]` (keeping at most the first 511 bytes),
one `mkdir` per `'/'` found from index 1 on, plus a final `mkdir` of the
whole (possibly truncated) path. -/
def ensureDirs (path : List Char) : List (List Char) :=
  ((List.range (path.take 511).length).filterMap (fun i =>
    if 1 ≤ i ∧ (path.take 511).get? i = some '/'
    then some ((path.take 511).take i) else none))
  ++ [path.take 511]

theorem ensureDirs_self_of_le (t : List Char) (h : t.length ≤ 511) :
    t ∈ ensureDirs t := by
  have ht : t.take 511 = t := List.take_of_length_le h
  rw [ensureDirs, ht]
  simp

theorem ensureDirs_slash_of_le (t : List Char) (hle : t.length ≤ 511) (i : Nat)
    (h1 : 1 ≤ i) (h2 : t.get? i = some '/') : t.take i ∈ ensureDirs t := by
  have ht : t.take 511 = t := List.take_of_length_le hle
  rw [ensureDirs, ht]
  apply List.mem_append_left
  apply List.mem_filterMap.2
  refine ⟨i, ?_, ?_⟩
  · apply List.mem_range.2
    obtain ⟨hlt, -⟩ := List.get?_eq_some.1 h2
    exact hlt
  · rw [if_pos ⟨h1, h2⟩]

/-- `snprintf(full, sizeof(full), "%s/%s", dir, name)` into `char full[512]`:
the joined path `dir/name`, truncated to its first 511 bytes. -/
def fullPath (dir name : List Char) : List Char :=
  (dir ++ '/' :: name).take 511

/-- The directories one loop iteration of the emitted `dumpEmbeddedStdlib`
creates: `ensure_dir` on the text before the last `'/'` of `full` when one
exists (`strrchr`), else on `full` itself. -/
def dumpDirsOf (full : List Char) : List (List Char) :=
  match parentOf full with
  | some p => ensureDirs p
  | none => ensureDirs full

theorem dumpDirs_covers (full : List Char) (hlen : full.length ≤ 511) (i : Nat)
    (h1 : 1 ≤ i) (h2 : full.get? i = some '/') :
    full.take i ∈ dumpDirsOf full := by
  obtain ⟨p, hp⟩ := parentOf_of_slash full (List.get?_mem h2)
  obtain ⟨q, hfull, hq⟩ := parentOf_spec full p hp
  simp only [dumpDirsOf, hp]
  have hple : p.length ≤ 511 := by
    have hflen : full.length = p.length + (q.length + 1) := by
      rw [hfull]
      simp [List.length_append]
    omega
  have hi_le : i ≤ p.length := by
    by_contra hgt
    push_neg at hgt
    rw [hfull, List.get?_append_right (Nat.le_of_lt hgt)] at h2
    obtain ⟨j, hj⟩ : ∃ j, i - p.length = j + 1 :=
      ⟨i - p.length - 1, by omega⟩
    rw [hj] at h2
    simp only [List.get?_cons_succ] at h2
    exact hq (List.get?_mem h2)
  rcases Nat.lt_or_ge i p.length with hlt | hge
  · have hg : p.get? i = some '/' := by
      rw [hfull, List.get?_append hlt] at h2
      exact h2
    have hT : full.take i = p.take i := by
      rw [hfull, List.take_append_of_le_length (Nat.le_of_lt hlt)]
    rw [hT]
    exact ensureDirs_slash_of_le p hple i h1 hg
  · have hi : i = p.length := Nat.le_antisymm hi_le hge
    have hT : full.take i = p := by
      rw [hfull, hi, List.take_left]
    rw [hT]
    exact ensureDirs_self_of_le p hple

/-- The directories created for one module. -/
def dirsFor (dir : List Char) (m : Module) : List (List Char) :=
  dumpDirsOf (fullPath dir m.1)

/-- The file written for one module: the (possibly truncated) destination
`full`, content the module's source verbatim. -/
def fileFor (dir : List Char) (m : Module) : List Char × List Char :=
  (fullPath dir m.1, m.2)

/-- One iteration of the loop of the emitted `dumpEmbeddedStdlib`:
`snprintf` the destination, `ensure_dir` its parent, then
`fopen(full, "w")`/`fputs`.  State: (directories created so far, file
writes so far, in order). -/
def dumpOne (dir : List Char)
    (st : List (List Char) × List (List Char × List Char)) (m : Module) :
    List (List Char) × List (List Char × List Char) :=
  (st.1 ++ dirsFor dir m, st.2 ++ [fileFor dir m])

/-- The emitted C function `dumpEmbeddedStdlib(dir)`: iterate over the
embedded table in stored order. -/
def dumpEmbeddedStdlib (dir : List Char) (reg : List Module) :
    List (List Char) × List (List Char × List Char) :=
  reg.foldl (dumpOne dir) ([], [])

/-- The content of the file at path `p` after a sequence of writes
(`fopen(..., "w")` truncates, so the last write wins). -/
def fsGet {κ : Type} [DecidableEq κ] (l : List (κ × List Char)) (p : κ) :
    Option (List Char) :=
  l.foldl (fun acc e => if e.1 = p then some e.2 else acc) none

theorem dump_foldl (dir : List Char) (reg : List Module) :
    ∀ st, reg.foldl (dumpOne dir) st
      = (st.1 ++ concatMap (dirsFor dir) reg, st.2 ++ reg.map (fileFor dir)) := by
  induction reg with
  | nil => intro st; simp [concatMap_nil]
  | cons m reg ih =>
    intro st
    rw [List.foldl_cons, ih]
    simp [dumpOne, concatMap_cons, List.append_assoc]

theorem mem_concatMap {α β : Type} (f : α → List β) (l : List α) (b : β) :
    b ∈ concatMap f l ↔ ∃ a ∈ l, b ∈ f a := by
  induction l with
  | nil => simp [concatMap_nil]
  | cons a l ih => simp [concatMap_cons, ih, List.mem_append]

theorem fsGet_foldl_no_key {κ : Type} [DecidableEq κ] (k : κ)
    (l : List (κ × List Char)) (h : ∀ e ∈ l, e.1 ≠ k) :
    ∀ init, l.foldl (fun acc e => if e.1 = k then some e.2 else acc) init = init := by
  induction l with
  | nil => intro init; rfl
  | cons e l ih =>
    intro init
    rw [List.foldl_cons, if_neg (h e (by simp))]
    exact ih (fun e' he' => h e' (by simp [he'])) init

theorem fsGet_foldl_mem_nodup {κ : Type} [DecidableEq κ] (k : κ) (v : List Char)
    (l : List (κ × List Char)) (hnd : (l.map (·.1)).Nodup)
    (hm : (k, v) ∈ l) :
    ∀ init, l.foldl (fun acc e => if e.1 = k then some e.2 else acc) init = some v := by
  induction l with
  | nil => exact absurd hm (List.not_mem_nil _)
  | cons e l ih =>
    intro init
    rw [List.map_cons, List.nodup_cons] at hnd
    rcases List.mem_cons.1 hm with rfl | hm'
    · rw [List.foldl_cons, if_pos rfl]
      apply fsGet_foldl_no_key
      intro e' he' hk
      exact hnd.1 (hk ▸ List.mem_map_of_mem (·.1) he')
    · exact ih hnd.2 hm' _

theorem fsGet_mem_nodup {κ : Type} [DecidableEq κ] (l : List (κ × List Char))
    (k : κ) (v : List Char) (hnd : (l.map (·.1)).Nodup)
    (hm : (k, v) ∈ l) : fsGet l k = some v :=
  fsGet_foldl_mem_nodup k v l hnd hm none

theorem fsGet_snoc {κ : Type} [DecidableEq κ] (l : List (κ × List Char))
    (k : κ) (v : List Char) :
    fsGet (l ++ [(k, v)]) k = some v := by
  rw [fsGet, List.foldl_append]
  simp

/-- Counterexample to C6 at a concrete input: a module whose name makes
`targetDir/name` longer than the emitted C's 512-byte path buffer.
`snprintf` truncates the destination to its first 511 bytes, so the
materializer does not write at `targetDir` joined with `name`, refuting the
claim's unconditional destination. -/
theorem c6_counterexample :
    (dumpEmbeddedStdlib ['o'] [(List.replicate 520 'b', ['z'])]).2
      ≠ [(['o'] ++ '/' :: List.replicate 520 'b', ['z'])] := by
  rw [dumpEmbeddedStdlib, dump_foldl]
  simp only [List.nil_append, List.map_cons, List.map_nil, fileFor]
  intro heq
  simp only [List.cons.injEq, Prod.mk.injEq, and_true] at heq
  have h2 := congrArg List.length heq
  simp only [fullPath, List.length_take, List.length_append, List.length_cons,
    List.length_replicate] at h2
  omega

/-- C6 amended: the materializer processes every Module of the Registry, in
order; for each it computes the destination as the first 511 bytes of
`targetDir ++ "/" ++ name` (the emitted C builds the path with `snprintf`
into a 512-byte buffer) — which is exactly `targetDir` joined with `name`
whenever that joined path is at most 511 bytes — it creates every
intermediate directory along the (possibly truncated) destination, writes
the Module's source verbatim there, and a later write overwrites any file
previously present at the same path. -/
theorem c6_amended_materializer (dir : List Char) (reg : List Module) :
    ((dumpEmbeddedStdlib dir reg).2 = reg.map (fun m => (fullPath dir m.1, m.2)))
    ∧ (∀ m ∈ reg, (dir ++ '/' :: m.1).length ≤ 511 →
        fullPath dir m.1 = dir ++ '/' :: m.1)
    ∧ (∀ m ∈ reg, ∀ i, 1 ≤ i → (fullPath dir m.1).get? i = some '/' →
        (fullPath dir m.1).take i ∈ (dumpEmbeddedStdlib dir reg).1)
    ∧ (∀ m : Module, fsGet ((dumpEmbeddedStdlib dir (reg ++ [m])).2)
        (fullPath dir m.1) = some m.2) := by
  refine ⟨?_, ?_, ?_, ?_⟩
  · rw [dumpEmbeddedStdlib, dump_foldl]
    simp [fileFor]
  · intro m _ hle
    simp only [fullPath]
    exact List.take_of_length_le hle
  · intro m hm i h1 h2
    rw [dumpEmbeddedStdlib, dump_foldl]
    simp only [List.nil_append]
    apply (mem_concatMap _ _ _).2
    refine ⟨m, hm, ?_⟩
    have hlen : (fullPath dir m.1).length ≤ 511 := by
      simp only [fullPath]
      exact List.length_take_le _ _
    simp only [dirsFor]
    exact dumpDirs_covers _ hlen i h1 h2
  · intro m
    rw [dumpEmbeddedStdlib, dump_foldl]
    simp only [List.nil_append, List.map_append, List.map_cons, List.map_nil, fileFor]
    exact fsGet_snoc _ _ _

/-- Witness for the amended C6 at a concrete target and registry (short
path, so the destination is untruncated; duplicated name, so the overwrite
conjunct is exercised). -/
theorem c6_amended_materializer_witness :
    fullPath ['o'] ['s','t','d','/','m'] = ['o'] ++ '/' :: ['s','t','d','/','m']
    ∧ (fullPath ['o'] ['s','t','d','/','m']).take 1
        ∈ (dumpEmbeddedStdlib ['o'] [(['s','t','d','/','m'], ['A'])]).1
    ∧ fsGet ((dumpEmbeddedStdlib ['o']
          ([(['s','t','d','/','m'], ['A'])] ++ [(['s','t','d','/','m'], ['B'])])).2)
        (fullPath ['o'] ['s','t','d','/','m']) = some ['B'] :=
  ⟨(c6_amended_materializer ['o'] [(['s','t','d','/','m'], ['A'])]).2.1
      (['s','t','d','/','m'], ['A']) (by decide) (by decide),
   (c6_amended_materializer ['o'] [(['s','t','d','/','m'], ['A'])]).2.2.1
      (['s','t','d','/','m'], ['A']) (by decide) 1 (by decide) (by decide),
   (c6_amended_materializer ['o'] [(['s','t','d','/','m'], ['A'])]).2.2.2
      (['s','t','d','/','m'], ['B'])⟩

/-- The full relative component path of an enumerated file. -/
def pathOf (e : FileEntry) : List (List Char) :=
  e.1 ++ [e.2.1]

mutual

/-- Every file of the tree has the selected `.orus` extension. -/
def allOrus : FSTree → Bool
  | .node files dirs => files.all (fun fc => endsWithOrus fc.1) && allOrusDirs dirs

def allOrusDirs : List (List Char × FSTree) → Bool
  | [] => true
  | (_, t) :: rest => allOrus t && allOrusDirs rest

end

mutual

theorem allOrus_filesOf (t : FSTree) (h : allOrus t = true) :
    ∀ e ∈ filesOf t, endsWithOrus e.2.1 = true := by
  cases t with
  | node files dirs =>
    rw [allOrus] at h
    simp only [Bool.and_eq_true, List.all_eq_true] at h
    intro e he
    rw [filesOf] at he
    rcases List.mem_append.1 he with hm | hm
    · obtain ⟨fc, hfc, rfl⟩ := List.mem_map.1 hm
      exact h.1 fc hfc
    · obtain ⟨d, t', hdt, e', he', rfl⟩ := (mem_filesOfDirs dirs e).1 hm
      exact allOrusDirs_filesOf dirs h.2 d t' hdt e' he'

theorem allOrusDirs_filesOf (dirs : List (List Char × FSTree))
    (h : allOrusDirs dirs = true) :
    ∀ d t, (d, t) ∈ dirs → ∀ e ∈ filesOf t, endsWithOrus e.2.1 = true := by
  cases dirs with
  | nil => intro d t hdt; exact absurd hdt (List.not_mem_nil _)
  | cons dt rest =>
    obtain ⟨d0, t0⟩ := dt
    rw [allOrusDirs] at h
    simp only [Bool.and_eq_true] at h
    intro d t hdt
    rcases List.mem_cons.1 hdt with heq | hmem
    · simp only [Prod.mk.injEq] at heq
      exact heq.2 ▸ allOrus_filesOf t0 h.1
    · exact allOrusDirs_filesOf rest h.2 d t hmem

end

/-- Boolean duplicate-freedom of a list of names. -/
def nodupB : List (List Char) → Bool
  | [] => true
  | x :: xs => !(decide (x ∈ xs)) && nodupB xs

theorem nodupB_iff (l : List (List Char)) : nodupB l = true ↔ l.Nodup := by
  induction l with
  | nil => simp [nodupB]
  | cons x xs ih => simp [nodupB, List.nodup_cons, ih]

mutual

/-- No directory of the tree lists two files or two subdirectories with the
same name. -/
def nodupNames : FSTree → Bool
  | .node files dirs =>
    nodupB (files.map (·.1)) && nodupB (dirs.map (·.1)) && nodupDirs dirs

def nodupDirs : List (List Char × FSTree) → Bool
  | [] => true
  | (_, t) :: rest => nodupNames t && nodupDirs rest

end

theorem filesOfDirs_head (dirs : List (List Char × FSTree)) (e : FileEntry)
    (he : e ∈ filesOfDirs dirs) :
    ∃ d ∈ dirs.map (·.1), ∃ p, p ≠ [] ∧ pathOf e = d :: p := by
  obtain ⟨d, t, hdt, e', _, rfl⟩ := (mem_filesOfDirs dirs e).1 he
  exact ⟨d, List.mem_map_of_mem (·.1) hdt, e'.1 ++ [e'.2.1], by simp, rfl⟩

mutual

theorem nodup_paths (t : FSTree) (h : nodupNames t = true) :
    ((filesOf t).map pathOf).Nodup := by
  cases t with
  | node files dirs =>
    rw [nodupNames] at h
    simp only [Bool.and_eq_true] at h
    obtain ⟨⟨hf, hd⟩, hrec⟩ := h
    rw [filesOf, List.map_append]
    apply List.Nodup.append
    · rw [List.map_map]
      have : (pathOf ∘ fun fc : List Char × List Char => (([] : List (List Char)), fc.1, fc.2))
          = (fun fc => [fc.1]) := by
        funext fc; rfl
      rw [this]
      have hn := (nodupB_iff _).1 hf
      have : (files.map fun fc => [fc.1]) = (files.map (·.1)).map (fun n => [n]) := by
        rw [List.map_map]; rfl
      rw [this]
      exact hn.map (fun a b hab => by simpa using hab)
    · exact nodup_paths_dirs dirs hd hrec
    · intro p hp hq
      obtain ⟨x, hx, hpx⟩ := List.mem_map.1 hp
      obtain ⟨fc, hfc, rfl⟩ := List.mem_map.1 hx
      obtain ⟨e, he, hpe⟩ := List.mem_map.1 hq
      obtain ⟨d', hd', p', hp'ne, hps⟩ := filesOfDirs_head dirs e he
      rw [← hpx, hps] at hpe
      have hlen := congrArg List.length hpe
      simp [pathOf] at hlen
      exact hp'ne hlen

theorem nodup_paths_dirs (dirs : List (List Char × FSTree))
    (h1 : nodupB (dirs.map (·.1)) = true) (h2 : nodupDirs dirs = true) :
    ((filesOfDirs dirs).map pathOf).Nodup := by
  cases dirs with
  | nil => simp [filesOfDirs]
  | cons dt rest =>
    obtain ⟨d, t⟩ := dt
    rw [nodupDirs] at h2
    rw [List.map_cons] at h1
    rw [nodupB] at h1
    simp only [Bool.and_eq_true, Bool.not_eq_true', decide_eq_false_iff_not] at h1
    simp only [Bool.and_eq_true] at h2
    rw [filesOfDirs, List.map_append]
    apply List.Nodup.append
    · rw [List.map_map]
      have : (pathOf ∘ fun e : FileEntry => (d :: e.1, e.2))
          = (fun e => d :: pathOf e) := by
        funext e; rfl
      rw [this]
      have : ((filesOf t).map fun e => d :: pathOf e)
          = ((filesOf t).map pathOf).map (fun p => d :: p) := by
        rw [List.map_map]; rfl
      rw [this]
      exact (nodup_paths t h2.1).map (fun a b hab => by simpa using hab)
    · exact nodup_paths_dirs rest h1.2 h2.2
    · intro p hp hq
      obtain ⟨x, hx, hpx⟩ := List.mem_map.1 hp
      obtain ⟨e, hef, rfl⟩ := List.mem_map.1 hx
      obtain ⟨e', he', hpe'⟩ := List.mem_map.1 hq
      obtain ⟨d', hd', p', hp'ne, hps⟩ := filesOfDirs_head rest e' he'
      rw [← hpx, hps] at hpe'
      have hstep : pathOf (d :: e.1, e.2) = d :: pathOf e := rfl
      rw [hstep] at hpe'
      have hd'' : d' = d := by
        simpa using congrArg List.head? hpe'
      exact h1.1 (hd'' ▸ hd')

end

mutual

/-- The tree restricted to its `.orus` files (the shape of the tree that
materializing the scanned Registry recreates under `target/std`). -/
def filterOrus : FSTree → FSTree
  | .node files dirs =>
    .node (files.filter (fun fc => endsWithOrus fc.1)) (filterOrusDirs dirs)

def filterOrusDirs : List (List Char × FSTree) → List (List Char × FSTree)
  | [] => []
  | (d, t) :: rest => (d, filterOrus t) :: filterOrusDirs rest

end

theorem scanFilesList_filter (pre : List (List Char))
    (files : List (List Char × List Char)) :
    scanFilesList pre (files.filter (fun fc => endsWithOrus fc.1))
      = scanFilesList pre files := by
  induction files with
  | nil => rfl
  | cons fc files ih =>
    simp only [scanFilesList] at ih ⊢
    by_cases h : endsWithOrus fc.1
    · rw [List.filter_cons_of_pos (by simpa using h)]
      simp only [List.filterMap_cons, if_pos h, ih]
    · rw [List.filter_cons_of_neg (by simpa using h)]
      simp only [List.filterMap_cons, if_neg h, ih]

mutual

theorem scanTree_filterOrus (pre : List (List Char)) (t : FSTree) :
    scanTree pre (filterOrus t) = scanTree pre t := by
  cases t with
  | node files dirs =>
    rw [filterOrus, scanTree, scanTree, scanFilesList_filter,
      scanDirsList_filterOrus pre dirs]

theorem scanDirsList_filterOrus (pre : List (List Char))
    (dirs : List (List Char × FSTree)) :
    scanDirsList pre (filterOrusDirs dirs) = scanDirsList pre dirs := by
  cases dirs with
  | nil => rfl
  | cons dt rest =>
    obtain ⟨d, t⟩ := dt
    rw [filterOrusDirs, scanDirsList, scanDirsList,
      scanTree_filterOrus (pre ++ [d]) t, scanDirsList_filterOrus pre rest]

end

theorem filterMap_eq_mapMem {α β : Type} (f : α → Option β) (g : α → β)
    (l : List α) (h : ∀ a ∈ l, f a = some (g a)) : l.filterMap f = l.map g := by
  induction l with
  | nil => rfl
  | cons a l ih =>
    rw [List.filterMap_cons, h a (by simp), List.map_cons,
      ih (fun a ha => h a (by simp [ha]))]

theorem map_extMem {α β : Type} (f g : α → β) (l : List α)
    (h : ∀ a ∈ l, f a = g a) : l.map f = l.map g := by
  induction l with
  | nil => rfl
  | cons a l ih =>
    rw [List.map_cons, List.map_cons, h a (by simp),
      ih (fun a ha => h a (by simp [ha]))]

mutual

/-- No file content in the tree contains a carriage return (text-mode
reading is then the identity). -/
def noCR : FSTree → Bool
  | .node files dirs => files.all (fun fc => decide ('\r' ∉ fc.2)) && noCRDirs dirs

def noCRDirs : List (List Char × FSTree) → Bool
  | [] => true
  | (_, t) :: rest => noCR t && noCRDirs rest

end

mutual

theorem noCR_filesOf (t : FSTree) (h : noCR t = true) :
    ∀ e ∈ filesOf t, '\r' ∉ e.2.2 := by
  cases t with
  | node files dirs =>
    rw [noCR] at h
    simp only [Bool.and_eq_true, List.all_eq_true] at h
    intro e he
    rw [filesOf] at he
    rcases List.mem_append.1 he with hm | hm
    · obtain ⟨fc, hfc, rfl⟩ := List.mem_map.1 hm
      exact of_decide_eq_true (h.1 fc hfc)
    · obtain ⟨d, t', hdt, e', he', rfl⟩ := (mem_filesOfDirs dirs e).1 hm
      exact noCRDirs_filesOf dirs h.2 d t' hdt e' he'

theorem noCRDirs_filesOf (dirs : List (List Char × FSTree))
    (h : noCRDirs dirs = true) :
    ∀ d t, (d, t) ∈ dirs → ∀ e ∈ filesOf t, '\r' ∉ e.2.2 := by
  cases dirs with
  | nil => intro d t hdt; exact absurd hdt (List.not_mem_nil _)
  | cons dt rest =>
    obtain ⟨d0, t0⟩ := dt
    rw [noCRDirs] at h
    simp only [Bool.and_eq_true] at h
    intro d t hdt
    rcases List.mem_cons.1 hdt with heq | hmem
    · simp only [Prod.mk.injEq] at heq
      exact heq.2 ▸ noCR_filesOf t0 h.1
    · exact noCRDirs_filesOf rest h.2 d t hmem

end

theorem joinPath_inj_of_valid (ps1 ps2 : List (List Char)) (h1 : ps1 ≠ [])
    (h2 : ps2 ≠ []) (hv1 : ∀ p ∈ ps1, '/' ∉ p) (hv2 : ∀ p ∈ ps2, '/' ∉ p)
    (heq : joinPath ps1 = joinPath ps2) : ps1 = ps2 := by
  have hs := splitSlash_joinPath ps1 h1 hv1
  rw [← hs, heq, splitSlash_joinPath ps2 h2 hv2]

/-- A concrete all-`.orus` example tree. -/
def exTree2 : FSTree :=
  FSTree.node [(['a', '.', 'o', 'r', 'u', 's'], ['1', '\n'])]
    [(['s', 'u', 'b'], FSTree.node [(['c', '.', 'o', 'r', 'u', 's'], ['3'])] [])]

set_option maxRecDepth 8000 in
/-- Counterexample to C1 at concrete inputs: (i) a tree whose single
`.orus` file contains a carriage return materializes to content `x\ny`,
not byte-identical to the original `x\ry`, because `open(path, 'r')` reads
in text mode with universal-newline translation; (ii) a tree whose single
`.orus` file name makes `target/std/<name>` longer than the emitted C's
512-byte path buffer is written to a `snprintf`-truncated destination, not
to `targetDir/name`. -/
theorem c1_counterexample :
    ((dumpEmbeddedStdlib ['o'] (scanTree []
          (FSTree.node [(['a', '.', 'o', 'r', 'u', 's'], ['x', '\r', 'y'])] []))).2
        = [(['o', '/', 's', 't', 'd', '/', 'a', '.', 'o', 'r', 'u', 's'],
            ['x', '\n', 'y'])]
      ∧ (['x', '\n', 'y'] : List Char) ≠ ['x', '\r', 'y'])
    ∧ (dumpEmbeddedStdlib ['o'] (scanTree []
          (FSTree.node [(List.replicate 520 'a' ++ ['.', 'o', 'r', 'u', 's'],
            ['1'])] []))).2
        ≠ [(['o'] ++ '/' ::
              (stdC ++ '/' :: (List.replicate 520 'a' ++ ['.', 'o', 'r', 'u', 's'])),
            ['1'])] := by
  constructor
  · have hm : mkName [['a', '.', 'o', 'r', 'u', 's']]
        = ['s', 't', 'd', '/', 'a', '.', 'o', 'r', 'u', 's'] := by
      rw [mkName, pyReplace_single_id _ _ _ (by decide)]
      rfl
    have hu : univNewlines ['x', '\r', 'y'] = ['x', '\n', 'y'] := by
      rw [univNewlines_other 'x' (by decide), univNewlines_cr_other 'y' (by decide),
        univNewlines_other 'y' (by decide), univNewlines_nil]
    have hscan : scanTree []
          (FSTree.node [(['a', '.', 'o', 'r', 'u', 's'], ['x', '\r', 'y'])] [])
        = [(['s', 't', 'd', '/', 'a', '.', 'o', 'r', 'u', 's'], ['x', '\n', 'y'])] := by
      simp +decide [scanTree, scanDirsList, scanFilesList, hm, hu]
    rw [hscan]
    exact ⟨by decide, by decide⟩
  · have hm : mkName [List.replicate 520 'a' ++ ['.', 'o', 'r', 'u', 's']]
        = stdC ++ '/' :: (List.replicate 520 'a' ++ ['.', 'o', 'r', 'u', 's']) := by
      rw [mkName, pyReplace_single_id _ _ _ (by decide)]
      rfl
    have hu : univNewlines ['1'] = ['1'] := by
      rw [univNewlines_other _ (by decide), univNewlines_nil]
    have horus : endsWithOrus (List.replicate 520 'a' ++ ['.', 'o', 'r', 'u', 's']) = true := by
      decide
    have hscan : scanTree []
          (FSTree.node [(List.replicate 520 'a' ++ ['.', 'o', 'r', 'u', 's'], ['1'])] [])
        = [(stdC ++ '/' :: (List.replicate 520 'a' ++ ['.', 'o', 'r', 'u', 's']),
            ['1'])] := by
      rw [scanTree, scanDirsList, scanFilesList]
      simp only [List.filterMap_cons, List.filterMap_nil, horus, eq_self_iff_true,
        if_true, List.nil_append, List.append_nil, hu, hm]
    rw [hscan, dumpEmbeddedStdlib, dump_foldl]
    simp only [List.nil_append, List.map_cons, List.map_nil, fileFor]
    intro heq
    simp only [List.cons.injEq, Prod.mk.injEq, and_true] at heq
    have h2 := congrArg List.length heq
    simp only [fullPath, stdC, List.length_take, List.length_append,
      List.length_cons, List.length_replicate, List.length_nil] at h2
    omega

/-- C1 amended: round-trip for trees of `.orus` files whose contents are
free of carriage returns (text-mode reading is then the identity) and, per
target, whose materialized paths fit the emitted C's 512-byte path buffer:
(i) materializing the scanned Registry into `dir` writes, in scan order,
for every file of the tree, exactly one file at `dir/std/<relative path>`
with byte-identical content; (ii) the resulting file system maps each such
destination to the original content; (iii) re-scanning the materialized
output under the same extension filter and root convention (the tree under
`dir/std` is the original tree restricted to its `.orus` files) reproduces
every Module with identical name and source. -/
theorem c1_amended_roundtrip (t : FSTree) (h1 : allOrus t = true)
    (h2 : cleanNames t = true) (h3 : nodupNames t = true) (h4 : noCR t = true) :
    (∀ dir : List Char, (∀ e ∈ filesOf t,
          (dir ++ '/' :: joinPath (stdC :: (e.1 ++ [e.2.1]))).length ≤ 511) →
        (dumpEmbeddedStdlib dir (scanTree [] t)).2
          = (filesOf t).map (fun e =>
              (dir ++ '/' :: joinPath (stdC :: (e.1 ++ [e.2.1])), e.2.2)))
    ∧ (∀ dir : List Char, (∀ e ∈ filesOf t,
          (dir ++ '/' :: joinPath (stdC :: (e.1 ++ [e.2.1]))).length ≤ 511) →
        ∀ e ∈ filesOf t,
          fsGet ((dumpEmbeddedStdlib dir (scanTree [] t)).2)
            (dir ++ '/' :: joinPath (stdC :: (e.1 ++ [e.2.1]))) = some e.2.2)
    ∧ (∀ t', scanTree [] (filterOrus t') = scanTree [] t') := by
  have hvalid : ∀ e ∈ filesOf t, ∀ p ∈ stdC :: (e.1 ++ [e.2.1]), validName p = true := by
    intro e he p hp
    obtain ⟨hv1, hv2⟩ := cleanNames_filesOf t h2 e he
    rcases List.mem_cons.1 hp with rfl | hp
    · decide
    · rcases List.mem_append.1 hp with hp | hp
      · exact hv1 p hp
      · rcases List.mem_singleton.1 hp with rfl
        exact hv2
  have hscan : scanTree [] t
      = (filesOf t).map (fun e => (joinPath (stdC :: (e.1 ++ [e.2.1])), e.2.2)) := by
    rw [scanTree_eq_filesOf]
    apply filterMap_eq_mapMem
    intro e he
    rw [entryScan, if_pos (allOrus_filesOf t h1 e he), List.nil_append,
      mkName_eq_joinPath _ (fun p hp => hvalid e he p (List.mem_cons_of_mem _ hp)),
      univNewlines_id _ (noCR_filesOf t h4 e he)]
  have hfiles : ∀ dir : List Char, (∀ e ∈ filesOf t,
        (dir ++ '/' :: joinPath (stdC :: (e.1 ++ [e.2.1]))).length ≤ 511) →
      (dumpEmbeddedStdlib dir (scanTree [] t)).2
        = (filesOf t).map (fun e =>
            (dir ++ '/' :: joinPath (stdC :: (e.1 ++ [e.2.1])), e.2.2)) := by
    intro dir hb
    rw [dumpEmbeddedStdlib, dump_foldl, hscan, List.map_map]
    simp only [List.nil_append]
    apply map_extMem
    intro e he
    show fileFor dir (joinPath (stdC :: (e.1 ++ [e.2.1])), e.2.2) = _
    simp only [fileFor, fullPath]
    rw [List.take_of_length_le (hb e he)]
  refine ⟨hfiles, ?_, fun t' => scanTree_filterOrus [] t'⟩
  intro dir hb e he
  rw [hfiles dir hb]
  apply fsGet_mem_nodup
  · rw [List.map_map]
    have hcomp : ((fun x : List Char × List Char => x.1)
          ∘ fun e : FileEntry =>
            (dir ++ '/' :: joinPath (stdC :: (e.1 ++ [e.2.1])), e.2.2))
        = ((fun p => dir ++ '/' :: joinPath (stdC :: p)) ∘ pathOf) := by
      funext e; rfl
    rw [hcomp, ← List.map_map]
    refine List.Nodup.map_on ?_ (nodup_paths t h3)
    intro x hx y hy hxy
    obtain ⟨e1, he1, rfl⟩ := List.mem_map.1 hx
    obtain ⟨e2, he2, rfl⟩ := List.mem_map.1 hy
    simp only at hxy
    have h' := List.append_cancel_left hxy
    injection h' with hh h''
    have hcons := joinPath_inj_of_valid (stdC :: pathOf e1) (stdC :: pathOf e2)
      (by simp) (by simp)
      (fun p hp => (of_decide_eq_true (hvalid e1 he1 p hp)).2.1)
      (fun p hp => (of_decide_eq_true (hvalid e2 he2 p hp)).2.1) h''
    injection hcons with hh2 hfin
  · exact List.mem_map_of_mem (fun e : FileEntry =>
      (dir ++ '/' :: joinPath (stdC :: (e.1 ++ [e.2.1])), e.2.2)) he

/-- Witness for the amended C1: the round-trip theorem applied at the
concrete tree `exTree2` and target directory `o` (all paths short, all
contents carriage-return-free). -/
theorem c1_amended_roundtrip_witness :
    (dumpEmbeddedStdlib ['o'] (scanTree [] exTree2)).2
      = (filesOf exTree2).map (fun e =>
          (['o'] ++ '/' :: joinPath (stdC :: (e.1 ++ [e.2.1])), e.2.2)) :=
  (c1_amended_roundtrip exTree2 (by decide) (by decide) (by decide)
    (by decide)).1 ['o'] (by decide)

/-- The constant text written to `out_c` before the table entries. -/
def cPrefix : List Char :=
  ("#include \"../../include/builtin_stdlib.h\"\n"
    ++ "#include <string.h>\n#include <stdio.h>\n#include <sys/stat.h>\n"
    ++ "\nconst EmbeddedModule embeddedStdlib[] = \x7b\n").toList

/-- The constant text written to `out_c` after the table entries: the table
terminator, the count, and the C implementations of `getEmbeddedModule`,
`ensure_dir` and `dumpEmbeddedStdlib`, transcribed verbatim. -/
def cSuffix : List Char :=
  ("\x7d;\n"
    ++ "const int embeddedStdlibCount = sizeof(embeddedStdlib)/sizeof(EmbeddedModule);\n"
    ++ "\nconst char* getEmbeddedModule(const char* name)\x7b\n"
    ++ "    for(int i=0;i<embeddedStdlibCount;i++)\x7b\n"
    ++ "        if(strcmp(embeddedStdlib[i].name,name)==0) return embeddedStdlib[i].source;\n"
    ++ "    \x7d\n    return NULL;\n\x7d\n"
    ++ "\nstatic void ensure_dir(const char* path)\x7b\n"
    ++ "    char tmp[512];\n    strncpy(tmp,path,sizeof(tmp)-1);\n    tmp[sizeof(tmp)-1]=0;\n"
    ++ "    for(char* p=tmp+1; *p; p++)\x7b if(*p==\x27/\x27)\x7b *p=0; mkdir(tmp,0755); *p=\x27/\x27; \x7d \x7d\n"
    ++ "    mkdir(tmp,0755);\n\x7d\n"
    ++ "\nvoid dumpEmbeddedStdlib(const char* dir)\x7b\n    char full[512];\n    for(int i=0;i<embeddedStdlibCount;i++)\x7b\n"
    ++ "        snprintf(full,sizeof(full),\"%s/%s\",dir,embeddedStdlib[i].name);\n"
    ++ "        char* slash=strrchr(full,\x27/\x27);\n        if(slash)\x7b *slash=0; ensure_dir(full); *slash=\x27/\x27; \x7d else \x7b ensure_dir(full); \x7d\n"
    ++ "        FILE* f=fopen(full,\"w\"); if(f)\x7b fputs(embeddedStdlib[i].source,f); fclose(f); \x7d\n"
    ++ "    \x7d\n\x7d\n").toList

/-- One table line: `'    {"%s", "%s"},\n' % (name, escape_c(code))`. -/
def emitEntry (m : Module) : List Char :=
  ("    \x7b\"").toList ++ m.1 ++ ("\", \"").toList ++ escape_c m.2
    ++ ("\"\x7d,\n").toList

/-- The full definitions artifact (`out_c`) as a function of the Registry. -/
def emitC (mods : List Module) : List Char :=
  cPrefix ++ concatMap emitEntry mods ++ cSuffix

/-- The declarations artifact (`out_h`): the source writes only fixed
string literals to it. -/
def headerText : List Char :=
  ("#ifndef BUILTIN_STDLIB_H\n#define BUILTIN_STDLIB_H\n\n"
    ++ "typedef struct \x7b\n    const char* name;\n    const char* source;\n\x7d EmbeddedModule;\n\n"
    ++ "extern const EmbeddedModule embeddedStdlib[];\n"
    ++ "extern const int embeddedStdlibCount;\n"
    ++ "const char* getEmbeddedModule(const char* name);\n"
    ++ "void dumpEmbeddedStdlib(const char* dir);\n"
    ++ "\n#endif\n").toList

/-- Result of one run of the generator. -/
structure GenRun where
  exitCode : Nat
  registry : List Module
  outC : List Char
  outH : List Char

/-- A full run of `gen_stdlib.py` with a correct argument count.  `root` is
the tree at `src_dir`, or `none` when `src_dir` does not exist or is not
readable: `os.walk` ignores the error raised by `scandir` by default (its
documented behaviour), so the walk yields nothing, no exception is raised,
and the script reaches its normal end with exit status `0`. -/
def runGenerator (root : Option FSTree) : GenRun :=
  let mods := match root with
    | none => []
    | some t => scanTree [] t
  { exitCode := 0, registry := mods, outC := emitC mods, outH := headerText }

/-- Counterexample to C7 at the concrete input `root = none` (a missing or
unreadable root directory): the generator does NOT fail — it exits with
code `0` and silently produces an empty Registry, contradicting the claim
that it fails with a ScanError and a non-zero exit code. -/
theorem c7_counterexample :
    (runGenerator none).exitCode = 0 ∧ (runGenerator none).registry = [] :=
  ⟨rfl, rfl⟩

/-- C7 amended: when the generator is invoked on a root directory that does
not exist or is not readable, the directory walk yields nothing, so the
generator silently produces an empty Registry, emits artifacts with an
empty table, and exits with code `0` (it does not fail with a ScanError). -/
theorem c7_amended_scan_failure :
    (runGenerator none).exitCode = 0
    ∧ (runGenerator none).registry = []
    ∧ (runGenerator none).outC = emitC []
    ∧ (runGenerator none).outH = headerText :=
  ⟨rfl, rfl, rfl, rfl⟩

/-- C10: the declarations (header) artifact is a fixed constant string,
byte-identical across all runs and independent of the scanned tree and of
the Registry's contents. -/
theorem c10_header_is_constant :
    (∀ r1 r2 : Option FSTree, (runGenerator r1).outH = (runGenerator r2).outH)
    ∧ (∀ r : Option FSTree, (runGenerator r).outH = headerText) :=
  ⟨fun _ _ => rfl, fun _ => rfl⟩

/-- C8: two runs of the scanner over the same tree contents — trees whose
file enumerations are permutations of each other, as happens when the
directory listing order differs between runs — produce Registries that are
permutations of each other (the same multiset of Modules); yet byte-identical
emitted definitions artifacts are not guaranteed: there are such trees whose
emitted artifacts differ. -/
theorem c8_determinism_multiset :
    (∀ (t1 t2 : FSTree) (pre : List (List Char)),
        (filesOf t1).Perm (filesOf t2) → (scanTree pre t1).Perm (scanTree pre t2))
    ∧ (∃ t1 t2 : FSTree, (filesOf t1).Perm (filesOf t2)
        ∧ emitC (scanTree [] t1) ≠ emitC (scanTree [] t2)) := by
  constructor
  · intro t1 t2 pre hp
    rw [scanTree_eq_filesOf, scanTree_eq_filesOf]
    exact hp.filterMap _
  · refine ⟨FSTree.node [(['a', '.', 'o', 'r', 'u', 's'], ['1']),
        (['b', '.', 'o', 'r', 'u', 's'], ['2'])] [],
      FSTree.node [(['b', '.', 'o', 'r', 'u', 's'], ['2']),
        (['a', '.', 'o', 'r', 'u', 's'], ['1'])] [], ?_, ?_⟩
    · show (filesOf _).Perm (filesOf _)
      rw [filesOf, filesOf, filesOfDirs]
      simp only [List.map_cons, List.map_nil, List.append_nil]
      exact List.Perm.swap _ _ _
    · have hma : mkName [['a', '.', 'o', 'r', 'u', 's']]
          = ['s', 't', 'd', '/', 'a', '.', 'o', 'r', 'u', 's'] := by
        rw [mkName, pyReplace_single_id _ _ _ (by decide)]
        rfl
      have hmb : mkName [['b', '.', 'o', 'r', 'u', 's']]
          = ['s', 't', 'd', '/', 'b', '.', 'o', 'r', 'u', 's'] := by
        rw [mkName, pyReplace_single_id _ _ _ (by decide)]
        rfl
      have hesc1 : escape_c ['1'] = ['1'] := by
        rw [escape_c_eq_concatMap]; rfl
      have hesc2 : escape_c ['2'] = ['2'] := by
        rw [escape_c_eq_concatMap]; rfl
      have hu1 : univNewlines ['1'] = ['1'] := by
        rw [univNewlines_other _ (by decide), univNewlines_nil]
      have hu2 : univNewlines ['2'] = ['2'] := by
        rw [univNewlines_other _ (by decide), univNewlines_nil]
      have hsA : scanTree [] (FSTree.node [(['a', '.', 'o', 'r', 'u', 's'], ['1']),
            (['b', '.', 'o', 'r', 'u', 's'], ['2'])] [])
          = [(['s', 't', 'd', '/', 'a', '.', 'o', 'r', 'u', 's'], ['1']),
             (['s', 't', 'd', '/', 'b', '.', 'o', 'r', 'u', 's'], ['2'])] := by
        simp +decide [scanTree, scanDirsList, scanFilesList, hma, hmb, hu1, hu2]
      have hsB : scanTree [] (FSTree.node [(['b', '.', 'o', 'r', 'u', 's'], ['2']),
            (['a', '.', 'o', 'r', 'u', 's'], ['1'])] [])
          = [(['s', 't', 'd', '/', 'b', '.', 'o', 'r', 'u', 's'], ['2']),
             (['s', 't', 'd', '/', 'a', '.', 'o', 'r', 'u', 's'], ['1'])] := by
        simp +decide [scanTree, scanDirsList, scanFilesList, hma, hmb, hu1, hu2]
      rw [hsA, hsB]
      simp only [emitC, emitEntry, concatMap_cons, concatMap_nil, hesc1, hesc2]
      decide

/-- Witness for C8 at two concrete trees with the same files listed in a
different order: the two Registries are permutations of each other. -/
theorem c8_determinism_multiset_witness :
    (scanTree [] (FSTree.node [(['a', '.', 'o', 'r', 'u', 's'], ['1']),
        (['b', '.', 'o', 'r', 'u', 's'], ['2'])] [])).Perm
      (scanTree [] (FSTree.node [(['b', '.', 'o', 'r', 'u', 's'], ['2']),
        (['a', '.', 'o', 'r', 'u', 's'], ['1'])] [])) :=
  c8_determinism_multiset.1 _ _ [] (by
    rw [filesOf, filesOf, filesOfDirs]
    simp only [List.map_cons, List.map_nil, List.append_nil]
    exact List.Perm.swap _ _ _)

/-- Scans a string checking that no double-quote occurs without a backslash
as the immediately preceding character, `prev` being the character before
the scanned part. -/
def noBareQuoteFrom (prev : Char) : List Char → Bool
  | [] => true
  | c :: rest => (decide (c ≠ '"') || decide (prev = '\\')) && noBareQuoteFrom c rest

/-- No double-quote occurs in the string unless immediately preceded by a
backslash (in particular the string does not start with a double-quote). -/
def noBareQuote : List Char → Bool
  | [] => true
  | c :: rest => decide (c ≠ '"') && noBareQuoteFrom c rest

theorem noBareQuoteFrom_concatMap (s : List Char) :
    ∀ prev, noBareQuoteFrom prev (concatMap escMapChar s) = true := by
  induction s with
  | nil => intro prev; rfl
  | cons c s ih =>
    intro prev
    rw [concatMap_cons]
    by_cases h1 : c = '\\'
    · subst h1
      have he : escMapChar '\\' = ['\\', '\\'] := rfl
      rw [he]
      simp only [List.cons_append, List.nil_append, noBareQuoteFrom]
      simp [ih]
    · by_cases h2 : c = '"'
      · subst h2
        have he : escMapChar '"' = ['\\', '"'] := rfl
        rw [he]
        simp only [List.cons_append, List.nil_append, noBareQuoteFrom]
        simp [ih]
      · by_cases h3 : c = '\n'
        · subst h3
          have he : escMapChar '\n' = ['\\', 'n'] := rfl
          rw [he]
          simp only [List.cons_append, List.nil_append, noBareQuoteFrom]
          simp [ih]
        · have he : escMapChar c = [c] := by simp [escMapChar, h1, h2, h3]
          rw [he]
          simp only [List.cons_append, List.nil_append, noBareQuoteFrom]
          simp [h2, ih]

theorem newline_not_mem_concatMap (s : List Char) :
    '\n' ∉ concatMap escMapChar s := by
  induction s with
  | nil => simp [concatMap_nil]
  | cons c s ih =>
    rw [concatMap_cons]
    intro hm
    rcases List.mem_append.1 hm with hm | hm
    · by_cases h1 : c = '\\'
      · subst h1; exact absurd hm (by decide)
      · by_cases h2 : c = '"'
        · subst h2; exact absurd hm (by decide)
        · by_cases h3 : c = '\n'
          · subst h3; exact absurd hm (by decide)
          · have he : escMapChar c = [c] := by simp [escMapChar, h1, h2, h3]
            rw [he] at hm
            exact h3 (List.mem_singleton.1 hm).symm
    · exact ih hm

/-- C9: literal safety of the Escaper: for every input `s`, `escape_c s`
contains no raw newline character, and no double-quote that is not
immediately preceded by a backslash — so each emitted table entry's source
literal occupies a single line and its delimiting quotes are never
terminated early. -/
theorem c9_escape_literal_safe (s : List Char) :
    ('\n' ∉ escape_c s) ∧ noBareQuote (escape_c s) = true := by
  rw [escape_c_eq_concatMap]
  refine ⟨newline_not_mem_concatMap s, ?_⟩
  have hfrom := noBareQuoteFrom_concatMap s 'a'
  cases h : concatMap escMapChar s with
  | nil => rfl
  | cons c rest =>
    rw [h] at hfrom
    rw [noBareQuoteFrom] at hfrom
    rw [noBareQuote]
    simp only [Bool.and_eq_true, Bool.or_eq_true, decide_eq_true_eq] at hfrom ⊢
    rcases hfrom with ⟨hc | hc, hrest⟩
    · exact ⟨hc, hrest⟩
    · exact absurd hc (by decide)

end GenStdlib
